import Mathlib

/-!
Shallow embedding of the `filament` persistent directed-graph library
(`src/src/Graph.ts`) and proofs about its operations.

Embedding conventions:
* Node keys (`NodeKey = number | string | ValueObject`) are embedded as `Nat`.
  JavaScript falsy keys (the number `0`, the empty string) are represented by
  the key `0`: the traversal loop's `if (!nodeKey)` test is embedded as a test
  against `0` (and an empty wavefront, whose `first()` is `undefined`, is the
  `[]` case).
* Node values and edge values are embedded as `Nat`; an absent value
  (`undefined`) is `Option.none`.
* The immutable.js `Map`s (`nodes`, `edges`) are embedded as association
  lists; `Map.set` replaces an existing entry in place or appends a fresh one,
  `Map.delete` removes the entry, `Map.has`/`Map.get` are key lookups.
  Iteration order of an immutable.js collection is unspecified, so the list
  order is one concrete refinement of it.
* The lazy single-pass traversal sequences (`traverseUp`/`traverseDown`) are
  embedded as fuel-indexed functions producing the list of emitted entries:
  with fuel `f` the first at-most-`f` emissions are produced.  (The JS
  traversal can genuinely run forever, e.g. `descendants` on a 2-cycle, so a
  fuel index is required; `topoSort` is shown to terminate within its fuel.)
-/

namespace Filament

/-- Composite, order-sensitive identity of a directed edge
(class `EdgeKey` in `src/src/Graph.ts`): an ordered pair (source, target). -/
structure EdgeKey where
  source : Nat
  target : Nat
deriving DecidableEq, Repr

/-- The persistent graph store (`GraphProps` / `UntypedGraph` record):
a node mapping and an edge mapping, embedded as association lists. -/
structure Graph where
  nodes : List (Nat × Nat)
  edges : List (EdgeKey × Nat)
deriving DecidableEq, Repr

/-- Association-list embedding of immutable.js `Map.set`: overwrite the value
at an existing key (keeping its position) or append a fresh entry. -/
def assocSet {α β : Type} [BEq α] (l : List (α × β)) (k : α) (v : β) :
    List (α × β) :=
  if l.any (fun p => p.1 == k) then
    l.map (fun p => if p.1 == k then (k, v) else p)
  else l ++ [(k, v)]

/-- `hasNode(key)`: `this.nodes.has(key)`. -/
def hasNode (g : Graph) (key : Nat) : Bool :=
  g.nodes.any (fun p => p.1 == key)

/-- `getNode(key)`: `this.nodes.get(key)` with no `notSetValue`
(an absent key yields `none`). -/
def getNode (g : Graph) (key : Nat) : Option Nat :=
  List.lookup key g.nodes

/-- `setNode(key, node)`: `this.setIn(["nodes", key], node)`. -/
def setNode (g : Graph) (key node : Nat) : Graph :=
  { g with nodes := assocSet g.nodes key node }

/-- `deleteNode(key)`: `this.deleteIn(["nodes", key])` — only the node entry
is removed, the edge mapping is untouched. -/
def deleteNode (g : Graph) (key : Nat) : Graph :=
  { g with nodes := g.nodes.filter (fun p => p.1 != key) }

/-- `hasEdge(srcKey, tgtKey)`: `this.edges.has(new EdgeKey(srcKey, tgtKey))`. -/
def hasEdge (g : Graph) (srcKey tgtKey : Nat) : Bool :=
  g.edges.any (fun p => p.1 == EdgeKey.mk srcKey tgtKey)

/-- `getEdge(srcKey, tgtKey)` with no `notSetValue`. -/
def getEdge (g : Graph) (srcKey tgtKey : Nat) : Option Nat :=
  List.lookup (EdgeKey.mk srcKey tgtKey) g.edges

/-- `connect(srcKey, tgtKey, edge)`: no-op unless both endpoints are present
nodes; otherwise insert/overwrite the edge keyed `(srcKey, tgtKey)`. -/
def connect (g : Graph) (srcKey tgtKey edge : Nat) : Graph :=
  if !(hasNode g srcKey) || !(hasNode g tgtKey) then g
  else { g with edges := assocSet g.edges (EdgeKey.mk srcKey tgtKey) edge }

/-- `disconnect(srcKey, tgtKey)`: no-op unless both endpoints are present
nodes; otherwise delete the edge keyed `(srcKey, tgtKey)`. -/
def disconnect (g : Graph) (srcKey tgtKey : Nat) : Graph :=
  if !(hasNode g srcKey) || !(hasNode g tgtKey) then g
  else { g with edges := g.edges.filter (fun p => p.1 != EdgeKey.mk srcKey tgtKey) }

/-- `predecessors(key)`: entries `(k.source, nodes.get(k.source))` for every
edge `k` with `k.target === key`. -/
def predecessors (g : Graph) (key : Nat) : List (Nat × Option Nat) :=
  (g.edges.filter (fun p => p.1.target == key)).map
    (fun p => (p.1.source, getNode g p.1.source))

/-- `successors(key)`: entries `(k.target, nodes.get(k.target))` for every
edge `k` with `k.source === key`. -/
def successors (g : Graph) (key : Nat) : List (Nat × Option Nat) :=
  (g.edges.filter (fun p => p.1.source == key)).map
    (fun p => (p.1.target, getNode g p.1.target))

/-- `neighbors(key)`: predecessors concatenated with the successors whose key
is not already a predecessor key. -/
def neighbors (g : Graph) (key : Nat) : List (Nat × Option Nat) :=
  let pre := predecessors g key
  let suc := (successors g key).filter (fun q => !(pre.any (fun p => p.1 == q.1)))
  pre ++ suc

/-- `connectAll(srcKeys, tgtKeys, value)`: filter both key iterables to
existing nodes, then fold `edges.set` over the cross product. -/
def connectAll (g : Graph) (srcKeys tgtKeys : List Nat)
    (value : Nat → Nat → Nat) : Graph :=
  { g with edges :=
      (List.foldl (fun prior e => assocSet prior e.1 e.2) g.edges
        ((srcKeys.filter (fun s => hasNode g s)).flatMap
          (fun s => (tgtKeys.filter (fun t => hasNode g t)).map
            (fun t => (EdgeKey.mk s t, value s t))))) }

/-- `findSources()`: nodes whose key never appears as an edge target. -/
def findSources (g : Graph) : List (Nat × Nat) :=
  let targets := g.edges.map (fun p => p.1.target)
  g.nodes.filter (fun p => !(targets.contains p.1))

/-- `findSinks()`: nodes whose key never appears as an edge source. -/
def findSinks (g : Graph) : List (Nat × Nat) :=
  let sources := g.edges.map (fun p => p.1.source)
  g.nodes.filter (fun p => !(sources.contains p.1))

/-- `wavefront.add(k)`: immutable.js `Set.add`, idempotent insertion
(embedded as append-if-absent). -/
def wfAdd (w : List Nat) (k : Nat) : List Nat :=
  if w.contains k then w else w ++ [k]

/-- `Seq(keys).toSet()`: deduplication of the seed keys, keeping first
occurrences. -/
def toSetSeq (keys : List Nat) : List Nat :=
  List.foldl wfAdd [] keys

/-- One full consumption (up to `fuel` emissions) of the forward traversal
loop of `traverseDown`: take the first wavefront key; a falsy key (or an
exhausted wavefront) ends the sequence; otherwise drop from the residual
edge set every edge sourced at that key, add every successor with no
remaining residual in-edge to the wavefront, and emit the key with its node
value. -/
def runDown (g : Graph) : Nat → List Nat → List (EdgeKey × Nat) →
    List (Nat × Option Nat)
  | 0, _, _ => []
  | _ + 1, [], _ => []
  | fuel + 1, nodeKey :: rest, res =>
    if nodeKey == 0 then []
    else
      let res' := res.filter (fun p => p.1.source != nodeKey)
      let ready := ((successors g nodeKey).map Prod.fst).filter
        (fun s => !(res'.any (fun p => p.1.target == s)))
      (nodeKey, getNode g nodeKey) :: runDown g fuel (List.foldl wfAdd rest ready) res'

/-- One full consumption (up to `fuel` emissions) of the backward traversal
loop of `traverseUp` — the mirror image of `runDown`. -/
def runUp (g : Graph) : Nat → List Nat → List (EdgeKey × Nat) →
    List (Nat × Option Nat)
  | 0, _, _ => []
  | _ + 1, [], _ => []
  | fuel + 1, nodeKey :: rest, res =>
    if nodeKey == 0 then []
    else
      let res' := res.filter (fun p => p.1.target != nodeKey)
      let ready := ((predecessors g nodeKey).map Prod.fst).filter
        (fun s => !(res'.any (fun p => p.1.source == s)))
      (nodeKey, getNode g nodeKey) :: runUp g fuel (List.foldl wfAdd rest ready) res'

/-- `traverseDown(keys)` consumed with the given fuel. -/
def traverseDown (g : Graph) (keys : List Nat) (fuel : Nat) :
    List (Nat × Option Nat) :=
  runDown g fuel (toSetSeq keys) g.edges

/-- `traverseUp(keys)` consumed with the given fuel. -/
def traverseUp (g : Graph) (keys : List Nat) (fuel : Nat) :
    List (Nat × Option Nat) :=
  runUp g fuel (toSetSeq keys) g.edges

/-- `ancestors(key)`: backward traversal seeded with `[key]`, then the seed
key filtered out. -/
def ancestors (g : Graph) (key : Nat) (fuel : Nat) : List (Nat × Option Nat) :=
  (traverseUp g [key] fuel).filter (fun p => p.1 != key)

/-- `descendants(key)`: forward traversal seeded with `[key]`, then the seed
key filtered out. -/
def descendants (g : Graph) (key : Nat) (fuel : Nat) : List (Nat × Option Nat) :=
  (traverseDown g [key] fuel).filter (fun p => p.1 != key)

/-- `topoSort()`: forward traversal seeded with the `findSources()` keys.
The fuel `|nodes| + 2|edges| + 1` dominates full consumption: every emitted
key is a node key or an edge endpoint and no key is ever emitted twice in a
`findSources`-seeded run.  Under the endpoint invariant `EndpointsOk` this
is proved (`runDown_master` shows the wavefront is exhausted after at most
`|nodes|` emissions, so any fuel of at least `|nodes| + 1` yields the fully
consumed sequence). -/
def topoSort (g : Graph) : List (Nat × Option Nat) :=
  traverseDown g ((findSources g).map Prod.fst)
    (g.nodes.length + 2 * g.edges.length + 1)

/-- `hasCycles()`: fully consume `topoSort()` and compare its length with the
node count. -/
def hasCycles (g : Graph) : Bool :=
  (topoSort g).length != g.nodes.length

/-- `Graph.from(nodes, edges)`: bulk build of both mappings, left to right,
later duplicates overwriting earlier ones; edge endpoints are *not*
validated against the node mapping. -/
def fromLists (nodes : List (Nat × Nat)) (edges : List (Nat × Nat × Nat)) :
    Graph :=
  { nodes := List.foldl (fun m p => assocSet m p.1 p.2) [] nodes
    edges := List.foldl (fun m t => assocSet m (EdgeKey.mk t.1 t.2.1) t.2.2) [] edges }

/-- There is a stored edge from `u` to `v`. -/
def GEdge (g : Graph) (u v : Nat) : Prop :=
  ∃ p ∈ g.edges, p.1 = EdgeKey.mk u v

instance (g : Graph) (u v : Nat) : Decidable (GEdge g u v) := by
  unfold GEdge; infer_instance

/-- The graph contains a directed cycle: a closed walk of at least one edge,
given as the list of visited keys (first = last). -/
def Cyclic (g : Graph) : Prop :=
  ∃ c : List Nat, 2 ≤ c.length ∧ c.head? = c.getLast? ∧ List.Chain' (GEdge g) c

/-- The graph contains no directed cycle. -/
def Acyclic (g : Graph) : Prop := ¬ Cyclic g

/-- Every stored edge has both endpoints present in the node mapping (the
invariant `connect` enforces but bulk construction does not). -/
def EndpointsOk (g : Graph) : Prop :=
  ∀ p ∈ g.edges, p.1.source ∈ g.nodes.map Prod.fst ∧
    p.1.target ∈ g.nodes.map Prod.fst

instance (g : Graph) : Decidable (EndpointsOk g) := by
  unfold EndpointsOk; infer_instance

/-- Loop invariant of the `topoSort` consumption of `runDown`: `E` is the
list of keys emitted so far (in order), `w` the current wavefront, `res` the
residual edge set. -/
structure DInv (g : Graph) (E w : List Nat) (res : List (EdgeKey × Nat)) :
    Prop where
  eNodup : E.Nodup
  eNodes : ∀ k ∈ E, k ∈ g.nodes.map Prod.fst
  order : ∀ p ∈ g.edges, p.1.target ∈ E →
    E.indexOf p.1.source < E.indexOf p.1.target
  wNodes : ∀ k ∈ w, k ∈ g.nodes.map Prod.fst
  wFresh : ∀ k ∈ w, k ∉ E
  wReady : ∀ k ∈ w, ∀ p ∈ g.edges, p.1.target = k → p.1.source ∈ E
  wNodup : w.Nodup
  resEq : res = g.edges.filter (fun p => !(E.contains p.1.source))
  coverage : ∀ u ∈ g.nodes.map Prod.fst,
    (∀ p ∈ g.edges, p.1.target = u → p.1.source ∈ E) → u ∈ E ∨ u ∈ w

/-- Specification-side reading of `connectAll` (spec §4.2): repeated
`connect` over the cross product of the two key lists, each filtered to
existing nodes. -/
def connectAllBySpec (g : Graph) (srcKeys tgtKeys : List Nat)
    (value : Nat → Nat → Nat) : Graph :=
  List.foldl (fun h q => connect h q.1 q.2 (value q.1 q.2)) g
    ((srcKeys.filter (fun s => hasNode g s)).flatMap
      (fun s => (tgtKeys.filter (fun t => hasNode g t)).map (fun t => (s, t))))

section AssocLemmas

variable {α β : Type} [DecidableEq α]

theorem lookup_cons {β : Type} (k : α) (p : α × β) (t : List (α × β)) :
    List.lookup k (p :: t) = if k = p.1 then some p.2 else List.lookup k t := by
  rcases p with ⟨a, b⟩
  by_cases h : k = a <;> simp [List.lookup, h, beq_false_of_ne]

theorem overwriteFn_eq (k : α) (v : β) :
    (fun (p : α × β) => if p.1 == k then (k, v) else p) =
      (fun p => if p.1 = k then (k, v) else p) := by
  funext p
  by_cases hp : p.1 = k <;> simp [hp]

theorem lookup_overwrite (l : List (α × β)) (k : α) (v : β)
    (h : ∃ p ∈ l, p.1 = k) :
    List.lookup k (l.map (fun p => if p.1 = k then (k, v) else p)) = some v := by
  induction l with
  | nil => simp at h
  | cons p t ih =>
    by_cases hp : p.1 = k
    · simp [lookup_cons, hp]
    · have ht : ∃ q ∈ t, q.1 = k := by
        obtain ⟨q, hq, hqk⟩ := h
        rcases List.mem_cons.1 hq with rfl | hq'
        · exact absurd hqk hp
        · exact ⟨q, hq', hqk⟩
      have hne : k ≠ p.1 := fun hc => hp hc.symm
      rw [List.map_cons, lookup_cons]
      simp only [if_neg hp]
      rw [if_neg hne]
      exact ih ht

theorem lookup_overwrite_ne (l : List (α × β)) (k : α) (v : β) (k' : α)
    (h : k' ≠ k) :
    List.lookup k' (l.map (fun p => if p.1 = k then (k, v) else p)) =
      List.lookup k' l := by
  induction l with
  | nil => simp
  | cons p t ih =>
    rw [List.map_cons, lookup_cons, lookup_cons]
    by_cases hp : p.1 = k
    · have h1 : k' ≠ p.1 := fun hc => h (hc.trans hp)
      simp only [if_pos hp]
      rw [if_neg h, if_neg h1]
      exact ih
    · simp only [if_neg hp]
      by_cases hq : k' = p.1
      · rw [if_pos hq, if_pos hq]
      · rw [if_neg hq, if_neg hq]
        exact ih

theorem lookup_append_single (l : List (α × β)) (k : α) (v : β)
    (h : ∀ p ∈ l, p.1 ≠ k) : List.lookup k (l ++ [(k, v)]) = some v := by
  induction l with
  | nil => simp [lookup_cons]
  | cons p t ih =>
    have hne : k ≠ p.1 := fun hc => h p (by simp) hc.symm
    have := ih (fun q hq => h q (by simp [hq]))
    simpa [lookup_cons, hne] using this

theorem lookup_append_single_ne (l : List (α × β)) (k : α) (v : β) (k' : α)
    (h : k' ≠ k) : List.lookup k' (l ++ [(k, v)]) = List.lookup k' l := by
  induction l with
  | nil => simp [lookup_cons, h]
  | cons p t ih =>
    by_cases hq : k' = p.1
    · simp [lookup_cons, hq]
    · simpa [lookup_cons, hq] using ih

theorem lookup_assocSet_self (l : List (α × β)) (k : α) (v : β) :
    List.lookup k (assocSet l k v) = some v := by
  unfold assocSet
  by_cases h : l.any (fun p => p.1 == k) = true
  · rw [if_pos h, overwriteFn_eq]
    refine lookup_overwrite l k v ?_
    simpa using h
  · rw [if_neg h]
    refine lookup_append_single l k v ?_
    intro p hp hpk
    exact h (by simp only [List.any_eq_true]; exact ⟨p, hp, by simp [hpk]⟩)

theorem lookup_assocSet_ne (l : List (α × β)) (k : α) (v : β) (k' : α)
    (h : k' ≠ k) : List.lookup k' (assocSet l k v) = List.lookup k' l := by
  unfold assocSet
  by_cases hany : l.any (fun p => p.1 == k) = true
  · rw [if_pos hany, overwriteFn_eq]
    exact lookup_overwrite_ne l k v k' h
  · rw [if_neg hany]
    exact lookup_append_single_ne l k v k' h

theorem exists_assocSet_self (l : List (α × β)) (k : α) (v : β) :
    ∃ p ∈ assocSet l k v, p.1 = k := by
  unfold assocSet
  by_cases h : l.any (fun p => p.1 == k) = true
  · rw [if_pos h]
    simp only [List.any_eq_true, beq_iff_eq] at h
    obtain ⟨p, hp, hpk⟩ := h
    exact ⟨(k, v), List.mem_map.2 ⟨p, hp, by simp [hpk]⟩, rfl⟩
  · rw [if_neg h]
    exact ⟨(k, v), by simp, rfl⟩

theorem exists_assocSet_of (l : List (α × β)) (k : α) (v : β) (x : α)
    (hx : ∃ p ∈ l, p.1 = x) : ∃ p ∈ assocSet l k v, p.1 = x := by
  unfold assocSet
  obtain ⟨p, hp, hpx⟩ := hx
  by_cases h : l.any (fun p => p.1 == k) = true
  · rw [if_pos h]
    by_cases hpk : p.1 = k
    · refine ⟨(k, v), List.mem_map.2 ⟨p, hp, by simp [hpk]⟩, ?_⟩
      rw [← hpx, hpk]
    · exact ⟨p, List.mem_map.2 ⟨p, hp, by simp [hpk, beq_false_of_ne hpk]⟩, hpx⟩
  · rw [if_neg h]
    exact ⟨p, by simp [hp], hpx⟩

end AssocLemmas

theorem exists_foldl_assocSet {α β γ : Type} [DecidableEq α]
    (kf : γ → α) (vf : γ → β) (entries : List γ) :
    ∀ (acc : List (α × β)) (x : α),
      ((∃ p ∈ acc, p.1 = x) ∨ (∃ u ∈ entries, kf u = x)) →
      ∃ p ∈ List.foldl (fun m u => assocSet m (kf u) (vf u)) acc entries,
        p.1 = x := by
  induction entries with
  | nil =>
    intro acc x h
    rcases h with h | h
    · simpa using h
    · simp at h
  | cons u rest ih =>
    intro acc x h
    simp only [List.foldl_cons]
    apply ih
    rcases h with h | h
    · left; exact exists_assocSet_of _ _ _ _ h
    · rcases h with ⟨u', hu', hux⟩
      rcases List.mem_cons.1 hu' with rfl | h2
      · left; rw [← hux]; exact exists_assocSet_self acc (kf u') (vf u')
      · right; exact ⟨u', h2, hux⟩

theorem runUp_w_nil (g : Graph) (fuel : Nat) (res : List (EdgeKey × Nat)) :
    runUp g fuel [] res = [] := by
  cases fuel <;> simp [runUp]

theorem runDown_w_nil (g : Graph) (fuel : Nat) (res : List (EdgeKey × Nat)) :
    runDown g fuel [] res = [] := by
  cases fuel <;> simp [runDown]

theorem runUp_falsy (g : Graph) (fuel : Nat) (rest : List Nat)
    (res : List (EdgeKey × Nat)) : runUp g fuel (0 :: rest) res = [] := by
  cases fuel <;> simp [runUp]

theorem runDown_falsy (g : Graph) (fuel : Nat) (rest : List Nat)
    (res : List (EdgeKey × Nat)) : runDown g fuel (0 :: rest) res = [] := by
  cases fuel <;> simp [runDown]

theorem acyclic_of_edges_nil (g : Graph) (h : g.edges = []) : Acyclic g := by
  rintro ⟨c, hlen, _, hchain⟩
  rcases c with _ | ⟨a, _ | ⟨b, t⟩⟩
  · simp at hlen
  · simp at hlen
  · have hab : GEdge g a b := (List.chain'_cons.1 hchain).1
    obtain ⟨p, hp, _⟩ := hab
    rw [h] at hp
    simp at hp

/-- C9: `deleteNode(k)` removes only the entry for `k` from the node mapping;
the edge mapping of the result is identical to the receiver's (edges
incident to `k` remain stored), and deleting an absent key is a no-op. -/
theorem deleteNode_frame (g : Graph) (k : Nat) :
    (deleteNode g k).edges = g.edges ∧
    (deleteNode g k).nodes = g.nodes.filter (fun p => p.1 != k) ∧
    (hasNode g k = false → deleteNode g k = g) := by
  refine ⟨rfl, rfl, ?_⟩
  intro h
  have h' : ∀ p ∈ g.nodes, ¬(p.1 = k) := by
    intro p hp hc
    have : g.nodes.any (fun p => p.1 == k) = true := by
      simp only [List.any_eq_true]
      exact ⟨p, hp, by simp [hc]⟩
    rw [hasNode] at h
    rw [h] at this
    cases this
  have hfil : g.nodes.filter (fun p => p.1 != k) = g.nodes := by
    apply List.filter_eq_self.2
    intro p hp
    simpa [bne_iff_ne] using h' p hp
  show { g with nodes := g.nodes.filter (fun p => p.1 != k) } = g
  rw [hfil]

/-- Closed witness for `deleteNode_frame`: deleting the absent key `2` from a
one-node graph is a no-op, and its edge mapping is untouched. -/
theorem deleteNode_frame_witness :
    hasNode (fromLists [(1, 5)] [(1, 1, 3)]) 2 = false ∧
    deleteNode (fromLists [(1, 5)] [(1, 1, 3)]) 2 = fromLists [(1, 5)] [(1, 1, 3)] :=
  ⟨by decide, (deleteNode_frame (fromLists [(1, 5)] [(1, 1, 3)]) 2).2.2 (by decide)⟩

/-- C5: `connect(u, v, e)` returns the receiver unchanged whenever `u` or `v`
is absent from the nodes (no error raised); when both are present it
inserts/overwrites the edge keyed `(u, v)`, leaving the node mapping and
every other edge untouched. -/
theorem connect_spec (g : Graph) (u v e : Nat) :
    ((hasNode g u = false ∨ hasNode g v = false) → connect g u v e = g) ∧
    (hasNode g u = true → hasNode g v = true →
      getEdge (connect g u v e) u v = some e ∧
      (connect g u v e).nodes = g.nodes ∧
      (∀ s t : Nat, ¬(s = u ∧ t = v) →
        getEdge (connect g u v e) s t = getEdge g s t)) := by
  constructor
  · rintro (h | h) <;> unfold connect <;> simp [h]
  · intro hu hv
    unfold connect
    simp only [hu, hv, Bool.not_true, Bool.or_self, Bool.false_or,
      if_neg (by simp : ¬((false || false) = true))]
    refine ⟨?_, rfl, ?_⟩
    · unfold getEdge
      exact lookup_assocSet_self g.edges (EdgeKey.mk u v) e
    · intro s t hst
      unfold getEdge
      apply lookup_assocSet_ne
      intro hc
      injection hc with h1 h2
      exact hst ⟨h1, h2⟩

/-- Closed witness for `connect_spec`: in a two-node graph, connecting to an
absent endpoint is a no-op, while connecting two present nodes stores the
edge and leaves an unrelated lookup unchanged. -/
theorem connect_spec_witness :
    connect (fromLists [(1, 5), (2, 6)] []) 1 9 7 = fromLists [(1, 5), (2, 6)] [] ∧
    getEdge (connect (fromLists [(1, 5), (2, 6)] []) 1 2 7) 1 2 = some 7 ∧
    getEdge (connect (fromLists [(1, 5), (2, 6)] []) 1 2 7) 2 1 = getEdge (fromLists [(1, 5), (2, 6)] []) 2 1 :=
  ⟨(connect_spec (fromLists [(1, 5), (2, 6)] []) 1 9 7).1 (Or.inr (by decide)),
   ((connect_spec (fromLists [(1, 5), (2, 6)] []) 1 2 7).2 (by decide) (by decide)).1,
   ((connect_spec (fromLists [(1, 5), (2, 6)] []) 1 2 7).2 (by decide) (by decide)).2.2 2 1
     (by intro h; exact absurd h.2 (by decide))⟩

/-- C10: on the acyclic one-node graph whose single node key is the falsy
value `0`, `topoSort()` yields an empty sequence even though the node count
is `1` (the traversal treats the falsy frontier element as exhaustion), so
`hasCycles()` returns `true`. -/
theorem topoSort_falsy_frontier :
    (fromLists [(0, 7)] []).nodes.length = 1 ∧
    Acyclic (fromLists [(0, 7)] []) ∧
    topoSort (fromLists [(0, 7)] []) = [] ∧
    hasCycles (fromLists [(0, 7)] []) = true :=
  ⟨rfl, acyclic_of_edges_nil _ rfl, rfl, rfl⟩

/-- C3: the sequence produced by `ancestors(k)` never contains an entry whose
key is `k` itself, at any fuel (in particular on any finite prefix of the
lazy sequence), even when a cycle routes back through `k`. -/
theorem ancestors_not_self (g : Graph) (k fuel : Nat) (p : Nat × Option Nat)
    (hp : p ∈ ancestors g k fuel) : p.1 ≠ k := by
  have := List.of_mem_filter hp
  simpa [bne_iff_ne] using this

/-- Closed witness for `ancestors_not_self`, on a 2-cycle routing back
through the queried key `1`. -/
theorem ancestors_not_self_witness :
    (2, some 22) ∈ ancestors (fromLists [(1, 11), (2, 22)] [(1, 2, 12), (2, 1, 21)]) 1 5 ∧
    ((2 : Nat), some (22 : Nat)).1 ≠ 1 :=
  ⟨by decide,
   ancestors_not_self (fromLists [(1, 11), (2, 22)] [(1, 2, 12), (2, 1, 21)]) 1 5
     (2, some 22) (by decide)⟩

/-- C4 counterexample: the claim fails for a key that is absent from the node
mapping but referenced by a dangling stored edge. With node mapping `{2 ↦ 5}`
and the dangling edge `1 → 2`, `descendants(1)` emits the entry for `2`. -/
theorem descendants_absent_key_cex :
    hasNode (fromLists [(2, 5)] [(1, 2, 7)]) 1 = false ∧
    descendants (fromLists [(2, 5)] [(1, 2, 7)]) 1 3 = [(2, some 5)] :=
  ⟨by decide, by decide⟩

/-- C4 (amended): for a key `k` absent from the node mapping *and not an
endpoint of any stored edge*, both `ancestors(k)` and `descendants(k)` yield
the empty sequence (at every fuel). -/
theorem traversals_absent_key_empty (g : Graph) (k fuel : Nat)
    (habs : hasNode g k = false)
    (hinc : ∀ p ∈ g.edges, p.1.source ≠ k ∧ p.1.target ≠ k) :
    ancestors g k fuel = [] ∧ descendants g k fuel = [] := by
  have hseed : toSetSeq [k] = [k] := by simp [toSetSeq, wfAdd]
  by_cases hk : k = 0
  · subst hk
    unfold ancestors descendants traverseUp traverseDown
    rw [hseed, runUp_falsy, runDown_falsy]
    exact ⟨rfl, rfl⟩
  · cases fuel with
    | zero =>
      unfold ancestors descendants traverseUp traverseDown
      rw [hseed]
      simp [runUp, runDown]
    | succ n =>
      have hk' : (k == 0) = false := beq_false_of_ne hk
      have hpre : predecessors g k = [] := by
        unfold predecessors
        rw [List.filter_eq_nil_iff.2 (by
          intro p hp
          simpa using (hinc p hp).2)]
        rfl
      have hsuc : successors g k = [] := by
        unfold successors
        rw [List.filter_eq_nil_iff.2 (by
          intro p hp
          simpa using (hinc p hp).1)]
        rfl
      constructor
      · unfold ancestors traverseUp
        rw [hseed]
        simp only [runUp, hk', Bool.false_eq_true, if_false, hpre]
        rw [List.map_nil, List.filter_nil, List.foldl_nil, runUp_w_nil]
        simp
      · unfold descendants traverseDown
        rw [hseed]
        simp only [runDown, hk', Bool.false_eq_true, if_false, hsuc]
        rw [List.map_nil, List.filter_nil, List.foldl_nil, runDown_w_nil]
        simp

/-- Closed witness for `traversals_absent_key_empty`: key `7` is absent from
a graph with a stored self-loop on node `1`. -/
theorem traversals_absent_key_empty_witness :
    ancestors (fromLists [(1, 5)] [(1, 1, 3)]) 7 4 = [] ∧
    descendants (fromLists [(1, 5)] [(1, 1, 3)]) 7 4 = [] :=
  traversals_absent_key_empty (fromLists [(1, 5)] [(1, 1, 3)]) 7 4 (by decide)
    (by decide)

/-- C8: after `from(nodes, edges)`, `hasNode` is true for every supplied node
key and `hasEdge` is true for every supplied edge triple's (source, target)
pair — even when an edge references a key not supplied as a node. -/
theorem fromLists_contains (nodes : List (Nat × Nat))
    (edges : List (Nat × Nat × Nat)) (k v s t e : Nat) :
    ((k, v) ∈ nodes → hasNode (fromLists nodes edges) k = true) ∧
    ((s, t, e) ∈ edges → hasEdge (fromLists nodes edges) s t = true) := by
  constructor
  · intro hmem
    unfold hasNode fromLists
    simp only [List.any_eq_true, beq_iff_eq]
    exact exists_foldl_assocSet Prod.fst Prod.snd nodes [] k
      (Or.inr ⟨(k, v), hmem, rfl⟩)
  · intro hmem
    unfold hasEdge fromLists
    simp only [List.any_eq_true, beq_iff_eq]
    exact exists_foldl_assocSet (fun t => EdgeKey.mk t.1 t.2.1) (fun t => t.2.2)
      edges [] (EdgeKey.mk s t) (Or.inr ⟨(s, t, e), hmem, rfl⟩)

/-- Closed witness for `fromLists_contains`: the supplied node key `1` is
present, and the supplied edge `3 → 4` is stored even though neither `3` nor
`4` was supplied as a node. -/
theorem fromLists_contains_witness :
    hasNode (fromLists [(1, 5)] [(3, 4, 9)]) 1 = true ∧
    hasEdge (fromLists [(1, 5)] [(3, 4, 9)]) 3 4 = true :=
  ⟨(fromLists_contains [(1, 5)] [(3, 4, 9)] 1 5 3 4 9).1 (by decide),
   (fromLists_contains [(1, 5)] [(3, 4, 9)] 1 5 3 4 9).2 (by decide)⟩

theorem mem_keys_predecessors (g : Graph) (u x : Nat) :
    x ∈ (predecessors g u).map Prod.fst ↔
      ∃ p ∈ g.edges, p.1.target = u ∧ p.1.source = x := by
  unfold predecessors
  rw [List.map_map]
  simp only [List.mem_map, List.mem_filter, beq_iff_eq, Function.comp]
  constructor
  · rintro ⟨p, ⟨h1, h2⟩, h3⟩
    exact ⟨p, h1, h2, h3⟩
  · rintro ⟨p, h1, h2, h3⟩
    exact ⟨p, ⟨h1, h2⟩, h3⟩

theorem mem_keys_successors (g : Graph) (u x : Nat) :
    x ∈ (successors g u).map Prod.fst ↔
      ∃ p ∈ g.edges, p.1.source = u ∧ p.1.target = x := by
  unfold successors
  rw [List.map_map]
  simp only [List.mem_map, List.mem_filter, beq_iff_eq, Function.comp]
  constructor
  · rintro ⟨p, ⟨h1, h2⟩, h3⟩
    exact ⟨p, h1, h2, h3⟩
  · rintro ⟨p, h1, h2, h3⟩
    exact ⟨p, ⟨h1, h2⟩, h3⟩

theorem nodup_keys_predecessors (g : Graph) (u : Nat)
    (heWF : (g.edges.map Prod.fst).Nodup) :
    ((predecessors g u).map Prod.fst).Nodup := by
  unfold predecessors
  rw [List.map_map]
  have hsub : List.Sublist (g.edges.filter (fun p => p.1.target == u)) g.edges :=
    List.filter_sublist _
  have hkeysN : ((g.edges.filter (fun p => p.1.target == u)).map Prod.fst).Nodup :=
    heWF.sublist (hsub.map Prod.fst)
  have hpairsN : (g.edges.filter (fun p => p.1.target == u)).Nodup :=
    List.Nodup.of_map Prod.fst hkeysN
  apply List.Nodup.map_on ?_ hpairsN
  intro p hp q hq hpq
  have h1 : p.1.target = u := by simpa using (List.mem_filter.1 hp).2
  have h2 : q.1.target = u := by simpa using (List.mem_filter.1 hq).2
  have h3 : p.1.source = q.1.source := hpq
  have hkey : p.1 = q.1 := by
    calc p.1 = EdgeKey.mk p.1.source p.1.target := rfl
    _ = EdgeKey.mk q.1.source q.1.target := by rw [h1, h2, h3]
    _ = q.1 := rfl
  exact List.inj_on_of_nodup_map hkeysN hp hq hkey

theorem nodup_keys_successors (g : Graph) (u : Nat)
    (heWF : (g.edges.map Prod.fst).Nodup) :
    ((successors g u).map Prod.fst).Nodup := by
  unfold successors
  rw [List.map_map]
  have hsub : List.Sublist (g.edges.filter (fun p => p.1.source == u)) g.edges :=
    List.filter_sublist _
  have hkeysN : ((g.edges.filter (fun p => p.1.source == u)).map Prod.fst).Nodup :=
    heWF.sublist (hsub.map Prod.fst)
  have hpairsN : (g.edges.filter (fun p => p.1.source == u)).Nodup :=
    List.Nodup.of_map Prod.fst hkeysN
  apply List.Nodup.map_on ?_ hpairsN
  intro p hp q hq hpq
  have h1 : p.1.source = u := by simpa using (List.mem_filter.1 hp).2
  have h2 : q.1.source = u := by simpa using (List.mem_filter.1 hq).2
  have h3 : p.1.target = q.1.target := hpq
  have hkey : p.1 = q.1 := by
    calc p.1 = EdgeKey.mk p.1.source p.1.target := rfl
    _ = EdgeKey.mk q.1.source q.1.target := by rw [h1, h2, h3]
    _ = q.1 := rfl
  exact List.inj_on_of_nodup_map hkeysN hp hq hkey

/-- C7: `neighbors(u)` contains no duplicate keys; its key set is the union
of the key sets of `predecessors(u)` and `successors(u)`; and the
predecessor entries come first, unchanged (predecessor-side value and
ordering take precedence). -/
theorem neighbors_union (g : Graph) (u : Nat)
    (heWF : (g.edges.map Prod.fst).Nodup) :
    ((neighbors g u).map Prod.fst).Nodup ∧
    (∀ x : Nat, x ∈ (neighbors g u).map Prod.fst ↔
      x ∈ (predecessors g u).map Prod.fst ∨ x ∈ (successors g u).map Prod.fst) ∧
    (neighbors g u).take (predecessors g u).length = predecessors g u := by
  have hpreN := nodup_keys_predecessors g u heWF
  have hsucN := nodup_keys_successors g u heWF
  have hneigh : neighbors g u = predecessors g u ++
      (successors g u).filter
        (fun q => !((predecessors g u).any (fun p => p.1 == q.1))) := rfl
  have hmemF : ∀ x : Nat,
      x ∈ ((successors g u).filter
        (fun q => !((predecessors g u).any (fun p => p.1 == q.1)))).map Prod.fst ↔
      (x ∈ (successors g u).map Prod.fst ∧
        x ∉ (predecessors g u).map Prod.fst) := by
    intro x
    simp only [List.mem_map, List.mem_filter]
    constructor
    · rintro ⟨q, ⟨hq, hfil⟩, rfl⟩
      refine ⟨⟨q, hq, rfl⟩, ?_⟩
      intro hx
      obtain ⟨p, hp, hpx⟩ := hx
      have hany : (predecessors g u).any (fun p => p.1 == q.1) = true := by
        simp only [List.any_eq_true]
        exact ⟨p, hp, by simp [hpx]⟩
      rw [hany] at hfil
      cases hfil
    · rintro ⟨⟨q, hq, rfl⟩, hnx⟩
      refine ⟨q, ⟨hq, ?_⟩, rfl⟩
      rcases hb : (predecessors g u).any (fun p => p.1 == q.1) with _ | _
      · rfl
      · exfalso
        simp only [List.any_eq_true, beq_iff_eq] at hb
        obtain ⟨p, hp, hpq⟩ := hb
        exact hnx ⟨p, hp, hpq⟩
  refine ⟨?_, ?_, ?_⟩
  · rw [hneigh, List.map_append]
    apply List.Nodup.append hpreN
    · exact hsucN.sublist ((List.filter_sublist _).map Prod.fst)
    · intro x hx1 hx2
      exact ((hmemF x).1 hx2).2 hx1
  · intro x
    rw [hneigh, List.map_append, List.mem_append, hmemF x]
    tauto
  · rw [hneigh]
    exact List.take_left _ _

/-- Closed witness for `neighbors_union`: node `2` of a 3-node graph is
reachable both ways from node `1`; its neighbors are `{1, 3}` without
duplicates. -/
theorem neighbors_union_witness :
    ((neighbors (fromLists [(1, 11), (2, 22), (3, 33)]
      [(1, 2, 12), (2, 1, 21), (2, 3, 23)]) 2).map Prod.fst).Nodup ∧
    (1 ∈ (neighbors (fromLists [(1, 11), (2, 22), (3, 33)]
      [(1, 2, 12), (2, 1, 21), (2, 3, 23)]) 2).map Prod.fst ↔
      1 ∈ (predecessors (fromLists [(1, 11), (2, 22), (3, 33)]
        [(1, 2, 12), (2, 1, 21), (2, 3, 23)]) 2).map Prod.fst ∨
      1 ∈ (successors (fromLists [(1, 11), (2, 22), (3, 33)]
        [(1, 2, 12), (2, 1, 21), (2, 3, 23)]) 2).map Prod.fst) :=
  ⟨(neighbors_union (fromLists [(1, 11), (2, 22), (3, 33)]
      [(1, 2, 12), (2, 1, 21), (2, 3, 23)]) 2 (by decide)).1,
   (neighbors_union (fromLists [(1, 11), (2, 22), (3, 33)]
      [(1, 2, 12), (2, 1, 21), (2, 3, 23)]) 2 (by decide)).2.1 1⟩

theorem foldl_connect_pairs (g : Graph) (f : Nat → Nat → Nat) :
    ∀ (ps : List (Nat × Nat)) (h : Graph), h.nodes = g.nodes →
      (∀ q ∈ ps, hasNode g q.1 = true ∧ hasNode g q.2 = true) →
      List.foldl (fun h q => connect h q.1 q.2 (f q.1 q.2)) h ps =
        { h with edges := (List.foldl
            (fun prior q => assocSet prior (EdgeKey.mk q.1 q.2) (f q.1 q.2))
            h.edges ps) } := by
  intro ps
  induction ps with
  | nil =>
    intro h _ _
    rfl
  | cons q rest ih =>
    intro h hnodes hq
    simp only [List.foldl_cons]
    have h1 : hasNode h q.1 = true := by
      unfold hasNode
      rw [hnodes]
      exact (hq q (by simp)).1
    have h2 : hasNode h q.2 = true := by
      unfold hasNode
      rw [hnodes]
      exact (hq q (by simp)).2
    have hconn : connect h q.1 q.2 (f q.1 q.2) =
        { h with edges := assocSet h.edges (EdgeKey.mk q.1 q.2) (f q.1 q.2) } := by
      unfold connect
      rw [h1, h2]
      rfl
    rw [hconn]
    exact ih _ hnodes (fun q' hq' => hq q' (by simp [hq']))

/-- C6: `connectAll(srcKeys, tgtKeys, value)` equals the graph obtained by
calling `connect(s, t, value(s, t))` repeatedly for every pair `(s, t)` in
the cross product of `srcKeys` filtered to existing nodes and `tgtKeys`
filtered to existing nodes. -/
theorem connectAll_eq_repeated_connect (g : Graph) (srcKeys tgtKeys : List Nat)
    (value : Nat → Nat → Nat) :
    connectAll g srcKeys tgtKeys value = connectAllBySpec g srcKeys tgtKeys value := by
  unfold connectAll connectAllBySpec
  have hmem : ∀ q ∈ (srcKeys.filter (fun s => hasNode g s)).flatMap
      (fun s => (tgtKeys.filter (fun t => hasNode g t)).map (fun t => (s, t))),
      hasNode g q.1 = true ∧ hasNode g q.2 = true := by
    intro q hq
    rw [List.mem_flatMap] at hq
    obtain ⟨s, hs, hq2⟩ := hq
    rw [List.mem_map] at hq2
    obtain ⟨t, ht, rfl⟩ := hq2
    exact ⟨List.of_mem_filter hs, List.of_mem_filter ht⟩
  rw [foldl_connect_pairs g value _ g rfl hmem]
  have hE : ((srcKeys.filter (fun s => hasNode g s)).flatMap
        (fun s => (tgtKeys.filter (fun t => hasNode g t)).map
          (fun t => (EdgeKey.mk s t, value s t)))) =
      ((srcKeys.filter (fun s => hasNode g s)).flatMap
        (fun s => (tgtKeys.filter (fun t => hasNode g t)).map
          (fun t => (s, t)))).map
        (fun q => (EdgeKey.mk q.1 q.2, value q.1 q.2)) := by
    rw [List.map_flatMap]
    refine congrArg _ ?_
    funext s
    rw [List.map_map]
    rfl
  rw [hE, List.foldl_map]

theorem mem_wfAdd (w : List Nat) (k x : Nat) : x ∈ wfAdd w k ↔ x ∈ w ∨ x = k := by
  unfold wfAdd
  by_cases h : w.contains k
  · rw [if_pos h]
    have hk : k ∈ w := by simpa using h
    constructor
    · exact Or.inl
    · rintro (hx | rfl)
      · exact hx
      · exact hk
  · rw [if_neg h]
    simp

theorem nodup_wfAdd (w : List Nat) (k : Nat) (h : w.Nodup) : (wfAdd w k).Nodup := by
  unfold wfAdd
  by_cases hc : w.contains k
  · rw [if_pos hc]; exact h
  · rw [if_neg hc]
    have hk : k ∉ w := by simpa using hc
    simp [List.nodup_append, h, hk]

theorem mem_foldl_wfAdd (l : List Nat) :
    ∀ (acc : List Nat) (x : Nat),
      x ∈ List.foldl wfAdd acc l ↔ x ∈ acc ∨ x ∈ l := by
  induction l with
  | nil => intro acc x; simp
  | cons a rest ih =>
    intro acc x
    rw [List.foldl_cons, ih, mem_wfAdd]
    simp only [List.mem_cons]
    tauto

theorem nodup_foldl_wfAdd (l : List Nat) :
    ∀ (acc : List Nat), acc.Nodup → (List.foldl wfAdd acc l).Nodup := by
  induction l with
  | nil => intro acc h; exact h
  | cons a rest ih =>
    intro acc h
    rw [List.foldl_cons]
    exact ih _ (nodup_wfAdd acc a h)

theorem mem_toSetSeq (l : List Nat) (x : Nat) : x ∈ toSetSeq l ↔ x ∈ l := by
  unfold toSetSeq
  rw [mem_foldl_wfAdd]
  simp

theorem nodup_toSetSeq (l : List Nat) : (toSetSeq l).Nodup :=
  nodup_foldl_wfAdd l [] List.nodup_nil

theorem nodup_length_le (E L : List Nat) (hN : E.Nodup)
    (hsub : ∀ x ∈ E, x ∈ L) : E.length ≤ L.length := by
  calc E.length = E.toFinset.card := (List.toFinset_card_of_nodup hN).symm
  _ ≤ L.toFinset.card := by
      apply Finset.card_le_card
      intro x hx
      rw [List.mem_toFinset] at hx ⊢
      exact hsub x hx
  _ ≤ L.length := List.toFinset_card_le L

theorem residual_step (g : Graph) (E : List Nat) (k : Nat) :
    (g.edges.filter (fun p => !(E.contains p.1.source))).filter
        (fun p => p.1.source != k) =
      g.edges.filter (fun p => !((E ++ [k]).contains p.1.source)) := by
  rw [List.filter_filter]
  apply List.filter_congr
  intro p _
  by_cases h1 : p.1.source = k <;> by_cases h2 : p.1.source ∈ E <;>
    simp [h1, h2, List.elem_eq_mem]

theorem ready_eq_false_iff (g : Graph) (E : List Nat) (k s : Nat) :
    ((g.edges.filter (fun p => !((E ++ [k]).contains p.1.source))).any
        (fun p => p.1.target == s)) = false ↔
      (∀ p ∈ g.edges, p.1.target = s → p.1.source ∈ E ∨ p.1.source = k) := by
  rw [← Bool.not_eq_true, List.any_eq_true]
  simp only [List.mem_filter, beq_iff_eq, not_exists, not_and, List.elem_eq_mem,
    Bool.not_eq_true', List.mem_append, List.mem_singleton, List.elem_iff]
  constructor
  · intro h p hp hps
    by_contra hc
    push_neg at hc
    have := h p ⟨hp, by simp [hc.1, hc.2]⟩
    exact this hps
  · rintro h p ⟨hp, hsrc⟩ hps
    have := h p hp hps
    rcases this with h1 | h1
    · simp [h1] at hsrc
    · simp [h1] at hsrc

theorem DInv.step (g : Graph) (hend : EndpointsOk g) {E rest : List Nat}
    {k : Nat} {res : List (EdgeKey × Nat)} (hI : DInv g E (k :: rest) res) :
    DInv g (E ++ [k])
      (List.foldl wfAdd rest
        (((successors g k).map Prod.fst).filter
          (fun s => !((res.filter (fun p => p.1.source != k)).any
            (fun p => p.1.target == s)))))
      (res.filter (fun p => p.1.source != k)) := by
  have hres : res.filter (fun p => p.1.source != k) =
      g.edges.filter (fun p => !((E ++ [k]).contains p.1.source)) := by
    rw [hI.resEq]; exact residual_step g E k
  have hreadyMem : ∀ s, (s ∈ ((successors g k).map Prod.fst).filter
      (fun s => !((res.filter (fun p => p.1.source != k)).any
        (fun p => p.1.target == s))) ↔
      ((∃ p ∈ g.edges, p.1.source = k ∧ p.1.target = s) ∧
        (∀ p ∈ g.edges, p.1.target = s → p.1.source ∈ E ∨ p.1.source = k))) := by
    intro s
    rw [List.mem_filter, mem_keys_successors]
    constructor
    · rintro ⟨h1, h2⟩
      refine ⟨h1, ?_⟩
      rw [hres, Bool.not_eq_true'] at h2
      exact (ready_eq_false_iff g E k s).1 h2
    · rintro ⟨h1, h2⟩
      refine ⟨h1, ?_⟩
      rw [hres, Bool.not_eq_true']
      exact (ready_eq_false_iff g E k s).2 h2
  have hkE : k ∉ E := hI.wFresh k (by simp)
  have hkNode : k ∈ g.nodes.map Prod.fst := hI.wNodes k (by simp)
  have hkReady : ∀ p ∈ g.edges, p.1.target = k → p.1.source ∈ E :=
    hI.wReady k (by simp)
  have hrestNodup : rest.Nodup := (List.nodup_cons.1 hI.wNodup).2
  have hkrest : k ∉ rest := (List.nodup_cons.1 hI.wNodup).1
  have hEsrc : ∀ p ∈ g.edges, p.1.target ∈ E → p.1.source ∈ E := by
    intro p hp ht
    have h1 := hI.order p hp ht
    have h2 : E.indexOf p.1.target < E.length := List.indexOf_lt_length.2 ht
    exact List.indexOf_lt_length.1 (lt_trans h1 h2)
  refine ⟨?_, ?_, ?_, ?_, ?_, ?_, ?_, hres, ?_⟩
  · refine List.Nodup.append hI.eNodup (List.nodup_singleton k) ?_
    intro a ha hak
    rw [List.mem_singleton] at hak
    exact hkE (hak ▸ ha)
  · intro x hx
    rw [List.mem_append, List.mem_singleton] at hx
    rcases hx with hx | rfl
    · exact hI.eNodes x hx
    · exact hkNode
  · intro p hp ht
    rw [List.mem_append, List.mem_singleton] at ht
    rcases ht with ht | ht
    · have hsrc : p.1.source ∈ E := hEsrc p hp ht
      rw [List.indexOf_append_of_mem hsrc, List.indexOf_append_of_mem ht]
      exact hI.order p hp ht
    · have hsrc : p.1.source ∈ E := hkReady p hp ht
      rw [List.indexOf_append_of_mem hsrc, ht,
        List.indexOf_append_of_not_mem hkE, List.indexOf_cons_self]
      have := List.indexOf_lt_length.2 hsrc
      omega
  · intro x hx
    rw [mem_foldl_wfAdd] at hx
    rcases hx with hx | hx
    · exact hI.wNodes x (by simp [hx])
    · obtain ⟨⟨p, hp, _, hpt⟩, _⟩ := (hreadyMem x).1 hx
      exact hpt ▸ (hend p hp).2
  · intro x hx
    rw [mem_foldl_wfAdd] at hx
    rw [List.mem_append, List.mem_singleton]
    rintro (hxE | rfl)
    · rcases hx with hx | hx
      · exact hI.wFresh x (by simp [hx]) hxE
      · obtain ⟨⟨p, hp, hps, hpt⟩, _⟩ := (hreadyMem x).1 hx
        have : p.1.source ∈ E := hEsrc p hp (hpt ▸ hxE)
        exact hkE (hps ▸ this)
    · rcases hx with hx | hx
      · exact hkrest hx
      · obtain ⟨⟨p, hp, hps, hpt⟩, _⟩ := (hreadyMem x).1 hx
        have : p.1.source ∈ E := hkReady p hp hpt
        exact hkE (hps ▸ this)
  · intro x hx p hp hpt
    rw [mem_foldl_wfAdd] at hx
    rw [List.mem_append, List.mem_singleton]
    rcases hx with hx | hx
    · exact Or.inl (hI.wReady x (by simp [hx]) p hp hpt)
    · obtain ⟨_, hall⟩ := (hreadyMem x).1 hx
      exact hall p hp hpt
  · exact nodup_foldl_wfAdd _ rest hrestNodup
  · intro u hu hall
    by_cases hcase : ∀ p ∈ g.edges, p.1.target = u → p.1.source ∈ E
    · rcases hI.coverage u hu hcase with h | h
      · exact Or.inl (by simp [h])
      · rw [List.mem_cons] at h
        rcases h with rfl | h
        · exact Or.inl (by simp)
        · exact Or.inr (by rw [mem_foldl_wfAdd]; exact Or.inl h)
    · push_neg at hcase
      obtain ⟨p₀, hp₀, hpt₀, hps₀⟩ := hcase
      have hk0 : p₀.1.source = k := by
        have := hall p₀ hp₀ hpt₀
        rw [List.mem_append, List.mem_singleton] at this
        rcases this with h | h
        · exact absurd h hps₀
        · exact h
      refine Or.inr ?_
      rw [mem_foldl_wfAdd]
      refine Or.inr ((hreadyMem u).2 ⟨⟨p₀, hp₀, hk0, hpt₀⟩, ?_⟩)
      intro p hp hptu
      have := hall p hp hptu
      rw [List.mem_append, List.mem_singleton] at this
      exact this

theorem runDown_cons_step (g : Graph) (fuel : Nat) (k : Nat) (rest : List Nat)
    (res : List (EdgeKey × Nat)) (hk : k ≠ 0) :
    runDown g (fuel + 1) (k :: rest) res =
      (k, getNode g k) :: runDown g fuel
        (List.foldl wfAdd rest
          (((successors g k).map Prod.fst).filter
            (fun s => !((res.filter (fun p => p.1.source != k)).any
              (fun p => p.1.target == s)))))
        (res.filter (fun p => p.1.source != k)) := by
  simp only [runDown, beq_false_of_ne hk, Bool.false_eq_true, if_false]

theorem runDown_master (g : Graph) (hend : EndpointsOk g) :
    ∀ (fuel : Nat) (E w : List Nat) (res : List (EdgeKey × Nat)),
      DInv g E w res →
      ∃ w' res', DInv g (E ++ (runDown g fuel w res).map Prod.fst) w' res' ∧
        (g.nodes.length + 1 ≤ fuel + E.length →
          w' = [] ∨ ∃ t, w' = 0 :: t) := by
  intro fuel
  induction fuel with
  | zero =>
    intro E w res hI
    refine ⟨w, res, ?_, ?_⟩
    · simpa [runDown] using hI
    · intro hb
      exfalso
      have hle : E.length ≤ g.nodes.length := by
        have := nodup_length_le E (g.nodes.map Prod.fst) hI.eNodup hI.eNodes
        simpa using this
      omega
  | succ n ih =>
    intro E w res hI
    match w with
    | [] =>
      refine ⟨[], res, ?_, fun _ => Or.inl rfl⟩
      simpa [runDown] using hI
    | 0 :: rest =>
      refine ⟨0 :: rest, res, ?_, fun _ => Or.inr ⟨rest, rfl⟩⟩
      simpa [runDown_falsy] using hI
    | (k + 1) :: rest =>
      have hk : (k + 1) ≠ 0 := Nat.succ_ne_zero k
      rw [runDown_cons_step g n (k + 1) rest res hk]
      have hstep := DInv.step g hend hI
      obtain ⟨w', res', hI', hterm⟩ := ih (E ++ [k + 1]) _ _ hstep
      refine ⟨w', res', ?_, ?_⟩
      · rw [List.map_cons, List.append_cons]
        exact hI'
      · intro hb
        apply hterm
        rw [List.length_append, List.length_singleton]
        omega

theorem contains_false_iff (l : List Nat) (a : Nat) :
    (l.contains a = false) ↔ a ∉ l := by
  rw [Bool.eq_false_iff]
  exact not_congr List.elem_iff

theorem DInv.initial (g : Graph) :
    DInv g [] (toSetSeq ((findSources g).map Prod.fst)) g.edges := by
  have hfs : findSources g = g.nodes.filter
      (fun p => !((g.edges.map (fun p => p.1.target)).contains p.1)) := rfl
  have hsrcMem : ∀ x, (x ∈ (findSources g).map Prod.fst ↔
      (x ∈ g.nodes.map Prod.fst ∧ ∀ p ∈ g.edges, p.1.target ≠ x)) := by
    intro x
    rw [hfs]
    simp only [List.mem_map, List.mem_filter]
    constructor
    · rintro ⟨q, ⟨hq, hfil⟩, rfl⟩
      refine ⟨⟨q, hq, rfl⟩, ?_⟩
      intro p hp hc
      rw [Bool.not_eq_true', contains_false_iff] at hfil
      exact hfil (List.mem_map.2 ⟨p, hp, hc⟩)
    · rintro ⟨⟨q, hq, rfl⟩, hall⟩
      refine ⟨q, ⟨hq, ?_⟩, rfl⟩
      rw [Bool.not_eq_true', contains_false_iff]
      intro hmem
      obtain ⟨p, hp, hpt⟩ := List.mem_map.1 hmem
      exact hall p hp hpt
  refine ⟨List.nodup_nil, ?_, ?_, ?_, ?_, ?_, nodup_toSetSeq _, ?_, ?_⟩
  · intro k hk; cases hk
  · intro p _ ht; cases ht
  · intro k hk
    rw [mem_toSetSeq] at hk
    exact ((hsrcMem k).1 hk).1
  · intro k _ hk; cases hk
  · intro k hk p hp hpt
    rw [mem_toSetSeq] at hk
    exact absurd hpt (((hsrcMem k).1 hk).2 p hp)
  · symm
    apply List.filter_eq_self.2
    intro p _
    simp
  · intro u hu hall
    refine Or.inr ?_
    rw [mem_toSetSeq, hsrcMem u]
    refine ⟨hu, ?_⟩
    intro p hp hc
    have := hall p hp hc
    cases this

theorem topoSort_master (g : Graph) (hend : EndpointsOk g) :
    ∃ w' res', DInv g ((topoSort g).map Prod.fst) w' res' ∧
      (w' = [] ∨ ∃ t, w' = 0 :: t) := by
  obtain ⟨w', res', hI, hterm⟩ := runDown_master g hend
    (g.nodes.length + 2 * g.edges.length + 1) []
    (toSetSeq ((findSources g).map Prod.fst)) g.edges (DInv.initial g)
  refine ⟨w', res', ?_, hterm (by simp)⟩
  simpa [topoSort, traverseDown] using hI

theorem getLast?_map_range {α : Type} (F : Nat → α) (m : Nat) :
    ((List.range (m + 1)).map F).getLast? = some (F m) := by
  rw [List.range_succ m, List.map_append]
  simp

theorem head?_map_range {α : Type} (F : Nat → α) (m : Nat) :
    ((List.range (m + 1)).map F).head? = some (F 0) := by
  rw [List.range_succ_eq_map m, List.map_cons]
  rfl

theorem chain'_flip_iterate (g : Graph) (f : Nat → Nat) (b : Nat)
    (hstep : ∀ t : Nat, GEdge g (f^[t + 1] b) (f^[t] b)) :
    ∀ m : Nat, List.Chain' (fun x y => GEdge g y x)
      ((List.range (m + 1)).map (fun t => f^[t] b)) := by
  intro m
  induction m with
  | zero => simp
  | succ m ih =>
    rw [List.range_succ (m + 1), List.map_append]
    refine List.Chain'.append ih (by simp) ?_
    intro x hx y hy
    rw [getLast?_map_range] at hx
    simp only [List.map_cons, List.map_nil, List.head?_cons, Option.mem_def,
      Option.some_inj] at hx hy
    rw [← hx, ← hy]
    exact hstep m

theorem cyclic_of_pred (g : Graph) (U : Finset Nat) (hne : U.Nonempty)
    (hpred : ∀ x ∈ U, ∃ y ∈ U, GEdge g y x) : Cyclic g := by
  obtain ⟨b, hb⟩ := hne
  obtain ⟨f, hfU, hfE⟩ : ∃ f : Nat → Nat,
      (∀ x ∈ U, f x ∈ U) ∧ (∀ x ∈ U, GEdge g (f x) x) := by
    refine ⟨fun x => if hx : x ∈ U then (hpred x hx).choose else x, ?_, ?_⟩
    · intro x hx
      simp only [dif_pos hx]
      exact (hpred x hx).choose_spec.1
    · intro x hx
      simp only [dif_pos hx]
      exact (hpred x hx).choose_spec.2
  have hiter : ∀ t : Nat, f^[t] b ∈ U := by
    intro t
    induction t with
    | zero => simpa using hb
    | succ t ih =>
      rw [Function.iterate_succ_apply']
      exact hfU _ ih
  have hstep : ∀ t : Nat, GEdge g (f^[t + 1] b) (f^[t] b) := by
    intro t
    rw [Function.iterate_succ_apply']
    exact hfE _ (hiter t)
  have key : ∀ i j : Nat, i < j → f^[i] b = f^[j] b → Cyclic g := by
    intro i j hlt heq
    have hstepB : ∀ t : Nat, GEdge g (f^[t + 1] (f^[i] b)) (f^[t] (f^[i] b)) := by
      intro t
      rw [← Function.iterate_add_apply, ← Function.iterate_add_apply]
      have h1 : t + 1 + i = (t + i) + 1 := by omega
      rw [h1]
      exact hstep (t + i)
    have hchain := chain'_flip_iterate g f (f^[i] b) hstepB (j - i)
    refine ⟨((List.range ((j - i) + 1)).map (fun t => f^[t] (f^[i] b))).reverse,
      ?_, ?_, ?_⟩
    · rw [List.length_reverse, List.length_map, List.length_range]
      omega
    · rw [List.head?_reverse, List.getLast?_reverse, getLast?_map_range,
        head?_map_range]
      have hret : f^[j - i] (f^[i] b) = f^[0] (f^[i] b) := by
        rw [← Function.iterate_add_apply]
        have h2 : j - i + i = j := by omega
        rw [h2, ← heq]
        rfl
      rw [hret]
    · rw [List.chain'_reverse]
      exact hchain
  obtain ⟨i, hi, j, hj, hij, heq⟩ :=
    Finset.exists_ne_map_eq_of_card_lt_of_maps_to
      (show U.card < (Finset.range (U.card + 1)).card by simp)
      (fun i _ => hiter i)
  rcases Nat.lt_or_ge i j with hlt | hge
  · exact key i j hlt heq
  · have hlt2 : j < i := by omega
    exact key j i hlt2 heq.symm

theorem chain'_pred {R : Nat → Nat → Prop} :
    ∀ (t : List Nat) (a : Nat), List.Chain' R (a :: t) →
      ∀ w ∈ t, ∃ u ∈ a :: t, R u w := by
  intro t
  induction t with
  | nil =>
    intro a _ w hw
    cases hw
  | cons b rest ih =>
    intro a hchain w hw
    rcases List.mem_cons.1 hw with rfl | hw2
    · exact ⟨a, by simp, (List.chain'_cons.1 hchain).1⟩
    · obtain ⟨u, hu, hR⟩ := ih b (List.chain'_cons.1 hchain).2 w hw2
      refine ⟨u, ?_, hR⟩
      rcases List.mem_cons.1 hu with rfl | h2
      · simp
      · simp [h2]

theorem cycle_members (g : Graph) (c : List Nat) (hlen : 2 ≤ c.length)
    (hcl : c.head? = c.getLast?) (hchain : List.Chain' (GEdge g) c) :
    c.tail ≠ [] ∧ ∀ w ∈ c.tail, ∃ u ∈ c.tail, GEdge g u w := by
  rcases c with _ | ⟨a, t⟩
  · simp at hlen
  · have htne : t ≠ [] := by
      intro h
      rw [h] at hlen
      simp at hlen
    have hat : (a :: t).getLast? = t.getLast? := by
      rcases t with _ | ⟨b, t2⟩
      · exact absurd rfl htne
      · rw [List.getLast?_cons_cons]
    have hain : a ∈ t := by
      apply List.mem_of_mem_getLast?
      rw [← hat, ← hcl]
      rfl
    refine ⟨htne, ?_⟩
    intro w hw
    obtain ⟨u, hu, hR⟩ := chain'_pred t a hchain w hw
    rcases List.mem_cons.1 hu with rfl | h2
    · exact ⟨u, hain, hR⟩
    · exact ⟨u, h2, hR⟩

theorem cyclic_not_emitted (g : Graph) {F : List Nat}
    (horder : ∀ p ∈ g.edges, p.1.target ∈ F →
      F.indexOf p.1.source < F.indexOf p.1.target)
    {S : List Nat} (hS : ∀ w ∈ S, ∃ u ∈ S, GEdge g u w) :
    ∀ w ∈ S, w ∉ F := by
  have key : ∀ i : Nat, ∀ w ∈ S, w ∈ F → F.indexOf w = i → False := by
    intro i
    induction i using Nat.strong_induction_on with
    | _ i ihs =>
      intro w hwS hwF hidx
      obtain ⟨u, huS, ⟨p, hp, hpk⟩⟩ := hS w hwS
      have hpt : p.1.target = w := by rw [hpk]
      have hps : p.1.source = u := by rw [hpk]
      have hord := horder p hp (by rw [hpt]; exact hwF)
      rw [hps, hpt, hidx] at hord
      have huF : u ∈ F := by
        apply List.indexOf_lt_length.1
        exact lt_trans (lt_of_lt_of_eq hord hidx.symm)
          (List.indexOf_lt_length.2 hwF)
      exact ihs (F.indexOf u) hord u huS huF rfl
  intro w hwS hwF
  exact key (F.indexOf w) w hwS hwF rfl

/-- C1 counterexample: the claim as stated fails on the acyclic one-node
graph keyed by the falsy value `0`: fully consuming `topoSort()` emits `0`
entries while the graph has `1` node. -/
theorem topoSort_acyclic_cex :
    Acyclic (fromLists [(0, 42)] []) ∧
    (topoSort (fromLists [(0, 42)] [])).length ≠
      (fromLists [(0, 42)] []).nodes.length :=
  ⟨acyclic_of_edges_nil _ rfl, by decide⟩

/-- C1 (amended): for every acyclic graph whose node keys are truthy
(nonzero) and pairwise distinct, and whose every stored edge has both
endpoints present as nodes, fully consuming `topoSort()` emits exactly
`|nodes|` entries, each node key exactly once, and for every stored edge
`(u, v)` the entry for `u` comes strictly before the entry for `v`. -/
theorem topoSort_acyclic_complete (g : Graph)
    (hnodes : (g.nodes.map Prod.fst).Nodup)
    (hend : EndpointsOk g)
    (htruthy : ∀ k ∈ g.nodes.map Prod.fst, k ≠ 0)
    (hacyc : Acyclic g) :
    (topoSort g).length = g.nodes.length ∧
    ((topoSort g).map Prod.fst).Nodup ∧
    (∀ k, k ∈ g.nodes.map Prod.fst ↔ k ∈ (topoSort g).map Prod.fst) ∧
    (∀ p ∈ g.edges, ((topoSort g).map Prod.fst).indexOf p.1.source <
      ((topoSort g).map Prod.fst).indexOf p.1.target) := by
  obtain ⟨w', res', hI, hterm⟩ := topoSort_master g hend
  have hw' : w' = [] := by
    rcases hterm with h | ⟨t, ht⟩
    · exact h
    · exfalso
      have h0 : (0 : Nat) ∈ w' := by rw [ht]; simp
      exact htruthy 0 (hI.wNodes 0 h0) rfl
  have hcomplete : ∀ u ∈ g.nodes.map Prod.fst,
      u ∈ (topoSort g).map Prod.fst := by
    by_contra hc
    push_neg at hc
    obtain ⟨u₀, hu₀, hu₀F⟩ := hc
    have hmemU : ∀ x, (x ∈ (g.nodes.map Prod.fst).toFinset \
        ((topoSort g).map Prod.fst).toFinset ↔
        (x ∈ g.nodes.map Prod.fst ∧ x ∉ (topoSort g).map Prod.fst)) := by
      intro x
      rw [Finset.mem_sdiff, List.mem_toFinset, List.mem_toFinset]
    have hpred : ∀ x ∈ (g.nodes.map Prod.fst).toFinset \
        ((topoSort g).map Prod.fst).toFinset,
        ∃ y ∈ (g.nodes.map Prod.fst).toFinset \
          ((topoSort g).map Prod.fst).toFinset, GEdge g y x := by
      intro x hx
      obtain ⟨hxN, hxF⟩ := (hmemU x).1 hx
      have hnotall : ¬(∀ p ∈ g.edges, p.1.target = x →
          p.1.source ∈ (topoSort g).map Prod.fst) := by
        intro hall
        rcases hI.coverage x hxN hall with h | h
        · exact hxF h
        · rw [hw'] at h
          cases h
      push_neg at hnotall
      obtain ⟨p, hp, hpt, hps⟩ := hnotall
      refine ⟨p.1.source, (hmemU p.1.source).2 ⟨(hend p hp).1, hps⟩,
        ⟨p, hp, ?_⟩⟩
      rw [← hpt]
    exact hacyc (cyclic_of_pred g _ ⟨u₀, (hmemU u₀).2 ⟨hu₀, hu₀F⟩⟩ hpred)
  have hFN : ((topoSort g).map Prod.fst).Nodup := hI.eNodup
  have hFsub : ∀ x ∈ (topoSort g).map Prod.fst, x ∈ g.nodes.map Prod.fst :=
    hI.eNodes
  have hlen : ((topoSort g).map Prod.fst).length = g.nodes.length := by
    have h1 : ((topoSort g).map Prod.fst).length ≤
        (g.nodes.map Prod.fst).length := nodup_length_le _ _ hFN hFsub
    have h2 : (g.nodes.map Prod.fst).length ≤
        ((topoSort g).map Prod.fst).length :=
      nodup_length_le _ _ hnodes hcomplete
    simp only [List.length_map] at h1 h2 ⊢
    omega
  refine ⟨?_, hFN, fun k => ⟨hcomplete k, hFsub k⟩, ?_⟩
  · simpa only [List.length_map] using hlen
  · intro p hp
    exact hI.order p hp (hcomplete _ (hend p hp).2)

/-- Closed witness for `topoSort_acyclic_complete` on a concrete two-node
acyclic graph with truthy keys. -/
theorem topoSort_acyclic_complete_witness :
    (topoSort (fromLists [(1, 10), (2, 20)] [])).length =
      (fromLists [(1, 10), (2, 20)] []).nodes.length ∧
    ((topoSort (fromLists [(1, 10), (2, 20)] [])).map Prod.fst).Nodup :=
  ⟨(topoSort_acyclic_complete (fromLists [(1, 10), (2, 20)] []) (by decide)
      (by decide) (by decide) (acyclic_of_edges_nil _ rfl)).1,
   (topoSort_acyclic_complete (fromLists [(1, 10), (2, 20)] []) (by decide)
      (by decide) (by decide) (acyclic_of_edges_nil _ rfl)).2.1⟩

/-- C2 counterexample: the claim as stated fails on a graph whose cycle lives
on dangling edges: `from([], [(5,5,e)])` stores a self-loop on the absent
node `5`, contains a directed cycle, yet `topoSort()` emits `0 = |nodes|`
entries and `hasCycles()` returns `false`. -/
theorem hasCycles_dangling_cex :
    Cyclic (fromLists [] [(5, 5, 7)]) ∧
    ¬((topoSort (fromLists [] [(5, 5, 7)])).length <
      (fromLists [] [(5, 5, 7)]).nodes.length) ∧
    hasCycles (fromLists [] [(5, 5, 7)]) = false :=
  ⟨⟨[5, 5], by decide, by decide, by
    refine List.chain'_cons.2 ⟨⟨(EdgeKey.mk 5 5, 7), by decide, rfl⟩, ?_⟩
    exact List.chain'_singleton 5⟩, by decide, by decide⟩

/-- C2 (amended): for every graph that contains a directed cycle and whose
every stored edge has both endpoints present as nodes, fully consuming
`topoSort()` emits strictly fewer entries than the node count, and
`hasCycles()` — which by definition compares the fully-consumed `topoSort()`
count with the node count — returns `true`. -/
theorem topoSort_cyclic_strict (g : Graph) (hend : EndpointsOk g)
    (hcyc : Cyclic g) :
    (topoSort g).length < g.nodes.length ∧
    hasCycles g = true ∧
    hasCycles g = ((topoSort g).length != g.nodes.length) := by
  obtain ⟨c, hlen, hcl, hchain⟩ := hcyc
  obtain ⟨w', res', hI, _⟩ := topoSort_master g hend
  obtain ⟨htne, hSpred⟩ := cycle_members g c hlen hcl hchain
  have hnotF := cyclic_not_emitted g hI.order hSpred
  obtain ⟨w₀, hw₀⟩ := List.exists_mem_of_ne_nil c.tail htne
  have hw₀N : w₀ ∈ g.nodes.map Prod.fst := by
    obtain ⟨u, hu, ⟨p, hp, hpk⟩⟩ := hSpred w₀ hw₀
    have hpt : p.1.target = w₀ := by rw [hpk]
    exact hpt ▸ (hend p hp).2
  have hw₀F : w₀ ∉ (topoSort g).map Prod.fst := hnotF w₀ hw₀
  have hlt : ((topoSort g).map Prod.fst).length < g.nodes.length := by
    have hss : ((topoSort g).map Prod.fst).toFinset ⊂
        (g.nodes.map Prod.fst).toFinset := by
      constructor
      · intro x hx
        rw [List.mem_toFinset] at hx ⊢
        exact hI.eNodes x hx
      · intro hsup
        have := hsup (List.mem_toFinset.2 hw₀N)
        rw [List.mem_toFinset] at this
        exact hw₀F this
    calc ((topoSort g).map Prod.fst).length
        = ((topoSort g).map Prod.fst).toFinset.card :=
          (List.toFinset_card_of_nodup hI.eNodup).symm
    _ < (g.nodes.map Prod.fst).toFinset.card := Finset.card_lt_card hss
    _ ≤ (g.nodes.map Prod.fst).length := List.toFinset_card_le _
    _ = g.nodes.length := List.length_map _ _
  rw [List.length_map] at hlt
  refine ⟨hlt, ?_, rfl⟩
  have hne : (topoSort g).length ≠ g.nodes.length := by omega
  simpa [hasCycles, bne_iff_ne] using hne

/-- Closed witness for `topoSort_cyclic_strict` on a concrete 2-cycle with
both endpoints present. -/
theorem topoSort_cyclic_strict_witness :
    (topoSort (fromLists [(1, 11), (2, 22)] [(1, 2, 12), (2, 1, 21)])).length <
      (fromLists [(1, 11), (2, 22)] [(1, 2, 12), (2, 1, 21)]).nodes.length ∧
    hasCycles (fromLists [(1, 11), (2, 22)] [(1, 2, 12), (2, 1, 21)]) = true :=
  ⟨(topoSort_cyclic_strict (fromLists [(1, 11), (2, 22)] [(1, 2, 12), (2, 1, 21)])
      (by decide) ⟨[1, 2, 1], by decide, by decide, by
        refine List.chain'_cons.2 ⟨⟨(EdgeKey.mk 1 2, 12), by decide, rfl⟩, ?_⟩
        refine List.chain'_cons.2 ⟨⟨(EdgeKey.mk 2 1, 21), by decide, rfl⟩, ?_⟩
        exact List.chain'_singleton 1⟩).1,
   (topoSort_cyclic_strict (fromLists [(1, 11), (2, 22)] [(1, 2, 12), (2, 1, 21)])
      (by decide) ⟨[1, 2, 1], by decide, by decide, by
        refine List.chain'_cons.2 ⟨⟨(EdgeKey.mk 1 2, 12), by decide, rfl⟩, ?_⟩
        refine List.chain'_cons.2 ⟨⟨(EdgeKey.mk 2 1, 21), by decide, rfl⟩, ?_⟩
        exact List.chain'_singleton 1⟩).2.1⟩

end Filament
